import Mathlib

/-!
Verification of the market-structure core of the chart-analysis repository.

The Python source under src/src/analysis is shallowly embedded here:
prices are rationals (ℚ), a missing value (NaN) is `none` of an `Option`,
and the IEEE sentinel values −inf / +inf / NaN that the classifier uses as
"no previous swing yet" markers are modelled by an explicit inductive
carrier `F`.  Every definition follows the corresponding source function;
the comments name the file and function embedded.
-/

namespace ChartAnalysis

/-! ## Price carrier with IEEE sentinels

`_structure_utils.compare_prices` receives floats that can be NaN, +inf
(initial `last_l_price`) or −inf (initial `last_h_price`).  `F` models the
subset of float behaviour those code paths use: comparisons with NaN are
false, infinities compare as usual. -/

inductive F where
  | nan : F
  | inf : F
  | ninf : F
  | fin : ℚ → F
deriving DecidableEq, Repr

/-- `np.isfinite`. -/
def F.isFinite : F → Bool
  | .fin _ => true
  | _ => false

/-- Float `x <= 0` (NaN compares false). -/
def F.le0 : F → Bool
  | .nan => false
  | .inf => false
  | .ninf => true
  | .fin q => decide (q ≤ 0)

/-- Float `x <= t` against a finite rational `t` (NaN compares false). -/
def F.leQ : F → ℚ → Bool
  | .nan, _ => false
  | .inf, _ => false
  | .ninf, _ => true
  | .fin q, t => decide (q ≤ t)

/-- Float `x > l` against a finite rational `l` (NaN compares false). -/
def F.gtQ : F → ℚ → Bool
  | .nan, _ => false
  | .inf, _ => true
  | .ninf, _ => false
  | .fin q, l => decide (l < q)

/-- `abs(current - last) / last` for a finite positive divisor `l`;
the dividend keeps IEEE behaviour when `current` is not finite. -/
def diffPct : F → ℚ → F
  | .nan, _ => .nan
  | .inf, _ => .inf
  | .ninf, _ => .inf
  | .fin c, l => .fin (|c - l| / l)

inductive Cmp where
  | DOUBLE : Cmp
  | HIGHER : Cmp
  | LOWER : Cmp
deriving DecidableEq, Repr

/-- `_structure_utils.compare_prices`: `None` when `last_price <= 0` or not
finite; otherwise DOUBLE iff the relative difference is within tolerance,
else HIGHER / LOWER by strict comparison.  The inner match extracts the
finite value that the guard has already established. -/
def compare_prices (current last : F) (tol : ℚ) : Option Cmp :=
  if last.le0 || !last.isFinite then none
  else
    match last with
    | .fin l =>
        if (diffPct current l).leQ tol then some .DOUBLE
        else if current.gtQ l then some .HIGHER
        else some .LOWER
    | _ => none

inductive Label where
  | HH : Label
  | LH : Label
  | DT : Label
  | HL : Label
  | LL : Label
  | DB : Label
deriving DecidableEq, Repr

/-- `_structure_utils.classify_swing_high`. -/
def classify_swing_high (price lastH : F) (tol : ℚ) : Label :=
  match compare_prices price lastH tol with
  | none => .HH
  | some .DOUBLE => .DT
  | some .HIGHER => .HH
  | some .LOWER => .LH

/-- `_structure_utils.classify_swing_low`. -/
def classify_swing_low (price lastL : F) (tol : ℚ) : Label :=
  match compare_prices price lastL tol with
  | none => .LL
  | some .DOUBLE => .DB
  | some .LOWER => .LL
  | some .HIGHER => .HL

/-! ## Event merge (`_structure_utils.merge_sorted_events`)

The Python function concatenates the high events with the low events and
calls `sorted(events, key=lambda x: x[0])`.  Python's `sorted` is a stable
sort, so events with equal indices keep the concatenation order (all highs
before all lows).  A stable sort is extensionally a stable insertion sort;
that is the embedding used here. -/

inductive Side where
  | high : Side
  | low : Side
deriving DecidableEq, Repr

/-- Insert an event into an index-sorted list, in front of the first
element whose index is not smaller: elements already in the list that
compare equal stay in front only if they had a strictly smaller index, so
an element inserted from further left in the original list lands before
its equal-index peers (stability for the `sort (x :: xs) = insert x
(sort xs)` recursion). -/
def insertByIdx (e : ℕ × Side) : List (ℕ × Side) → List (ℕ × Side)
  | [] => [e]
  | x :: xs => if x.1 < e.1 then x :: insertByIdx e xs else e :: x :: xs

/-- Stable sort by index. -/
def stableSortByIdx : List (ℕ × Side) → List (ℕ × Side)
  | [] => []
  | x :: xs => insertByIdx x (stableSortByIdx xs)

/-- `merge_sorted_events`: tag, concatenate (highs first), stable-sort by
index. -/
def merge_sorted_events (high_indices low_indices : List ℕ) : List (ℕ × Side) :=
  stableSortByIdx
    (high_indices.map (fun i => (i, Side.high)) ++ low_indices.map (fun i => (i, Side.low)))

/-- Ordering the merge guarantees between two events at positions `j < k`:
indices never decrease, and at an equal index a LOW is never followed by a
HIGH (so every HIGH precedes every LOW at the same confirm index). -/
def evOrder (a b : ℕ × Side) : Prop :=
  a.1 ≤ b.1 ∧ (a.1 = b.1 → ¬(a.2 = Side.low ∧ b.2 = Side.high))

/-! ## Bars and the consecutive reversal detector
(`reversals.detect_consecutive_reversal`) -/

structure Bar where
  o : ℚ
  h : ℚ
  l : ℚ
  c : ℚ
deriving DecidableEq, Repr

/-- `is_bull = close > open`. -/
def isBull (b : Bar) : Bool := decide (b.o < b.c)

/-- `is_bear = close < open`. -/
def isBear (b : Bar) : Bool := decide (b.c < b.o)

/-- Run length of consecutive bars satisfying `p`, ending at each bar.
The pandas idiom `is_p.groupby((~is_p).cumsum()).cumsum()` computes exactly
this column: every bar not satisfying `p` opens a new group and carries
count 0, and within a run of `p` bars the cumulative sum counts 1, 2, …. -/
def streaksAux (p : Bar → Bool) : ℕ → List Bar → List ℕ
  | _, [] => []
  | s, b :: bs =>
      let t := if p b then s + 1 else 0
      t :: streaksAux p t bs

def bearStreaks (bars : List Bar) : List ℕ := streaksAux isBear 0 bars

def bullStreaks (bars : List Bar) : List ℕ := streaksAux isBull 0 bars

/-- `consecutive_bear_start` column: the bear streak equals
`consecutive_count` at this bar and `start_pos = i - count` is in range. -/
def consecutiveBearStart (bars : List Bar) (count i : ℕ) : Bool :=
  match (bearStreaks bars)[i]? with
  | some s => s == count && decide (count ≤ i)
  | none => false

def consecutiveBullStart (bars : List Bar) (count i : ℕ) : Bool :=
  match (bullStreaks bars)[i]? with
  | some s => s == count && decide (count ≤ i)
  | none => false

/-- `consecutive_top_price` column: `high.iloc[i - count]` where the bear
start flag is set, NaN elsewhere. -/
def consecutiveTopPrice (bars : List Bar) (count i : ℕ) : Option ℚ :=
  if consecutiveBearStart bars count i then (bars[i - count]?).map Bar.h else none

/-- `consecutive_bottom_price` column: `low.iloc[i - count]` where the bull
start flag is set, NaN elsewhere. -/
def consecutiveBottomPrice (bars : List Bar) (count i : ℕ) : Option ℚ :=
  if consecutiveBullStart bars count i then (bars[i - count]?).map Bar.l else none

/-- Concrete series for the consecutive detector: bars 0–9 bullish
(bar 9 has high 50), bars 10–12 bearish with highs 7, 6, 5. -/
def barsC2 : List Bar :=
  [⟨1, 5, 0, 2⟩, ⟨1, 5, 0, 2⟩, ⟨1, 5, 0, 2⟩, ⟨1, 5, 0, 2⟩, ⟨1, 5, 0, 2⟩,
   ⟨1, 5, 0, 2⟩, ⟨1, 5, 0, 2⟩, ⟨1, 5, 0, 2⟩, ⟨1, 5, 0, 2⟩, ⟨1, 50, 0, 2⟩,
   ⟨2, 7, 0, 1⟩, ⟨2, 6, 0, 1⟩, ⟨2, 5, 0, 1⟩]

/-! ## Climax reversal detector (`reversals.detect_climax_reversal`) -/

/-- True-range column: `max(high − low, |high − prev_close|, |low −
prev_close|)` by row; at the first bar the shifted previous close is NaN
and the row-wise `max` skips the NaN entries, leaving `high − low`. -/
def trAux : Option ℚ → List Bar → List ℚ
  | _, [] => []
  | none, b :: bs => (b.h - b.l) :: trAux (some b.c) bs
  | some pc, b :: bs =>
      max (b.h - b.l) (max |b.h - pc| |b.l - pc|) :: trAux (some b.c) bs

def trList (bars : List Bar) : List ℚ := trAux none bars

/-- `atr = tr.rolling(window=lookback, min_periods=1).mean()` at bar `i`:
mean of the true ranges over the left-clipped window `[i−lookback+1, i]`. -/
def atrAt (bars : List Bar) (lookback i : ℕ) : ℚ :=
  let w := ((trList bars).take (i + 1)).drop (i + 1 - lookback)
  w.sum / w.length

/-- `body_size = (close - open).abs()`. -/
def body (b : Bar) : ℚ := |b.c - b.o|

/-- `is_climax_bar = body_size > atr * atr_multiplier`. -/
def isClimaxBar (bars : List Bar) (lookback : ℕ) (mult : ℚ) (i : ℕ) : Bool :=
  match bars[i]? with
  | some b => decide (atrAt bars lookback i * mult < body b)
  | none => false

/-- `is_v_top = prev_bull_climax & is_bear_reversal`, with
`is_bear_reversal = prev_is_bull & is_bear & (body_size > prev_body * 0.5)
& (close < open.shift(1))`.  Bar 0 has no previous bar (the shifted flags
fill False). -/
def isVTop (bars : List Bar) (lookback : ℕ) (mult : ℚ) : ℕ → Bool
  | 0 => false
  | i + 1 =>
      match bars[i]?, bars[i + 1]? with
      | some pb, some b =>
          (isClimaxBar bars lookback mult i && isBull pb) &&
            (isBull pb && isBear b && decide (body pb * (1/2) < body b) &&
              decide (b.c < pb.o))
      | _, _ => false

/-- `is_v_bottom = prev_bear_climax & is_bull_reversal` (mirror). -/
def isVBottom (bars : List Bar) (lookback : ℕ) (mult : ℚ) : ℕ → Bool
  | 0 => false
  | i + 1 =>
      match bars[i]?, bars[i + 1]? with
      | some pb, some b =>
          (isClimaxBar bars lookback mult i && isBear pb) &&
            (isBear pb && isBull b && decide (body pb * (1/2) < body b) &&
              decide (pb.o < b.c))
      | _, _ => false

/-- `climax_top_price = np.where(is_v_top, high.shift(1), nan)`. -/
def climaxTopPrice (bars : List Bar) (lookback : ℕ) (mult : ℚ) (i : ℕ) : Option ℚ :=
  if isVTop bars lookback mult i then (bars[i - 1]?).map Bar.h else none

/-- `climax_bottom_price = np.where(is_v_bottom, low.shift(1), nan)`. -/
def climaxBottomPrice (bars : List Bar) (lookback : ℕ) (mult : ℚ) (i : ℕ) : Option ℚ :=
  if isVBottom bars lookback mult i then (bars[i - 1]?).map Bar.l else none

/-- Concrete series for the climax detector: four quiet bars (true range
1), a bullish climax bar 4 (open 10, close 14, body 4 > 2 × atr 8/5), then
bar 5 which closes at 9 — below bar 4's open, with body 4 — but is itself
BULLISH (open 5 < close 9). -/
def barsC5 : List Bar :=
  [⟨10, 21/2, 19/2, 10⟩, ⟨10, 21/2, 19/2, 10⟩, ⟨10, 21/2, 19/2, 10⟩,
   ⟨10, 21/2, 19/2, 10⟩, ⟨10, 14, 10, 14⟩, ⟨5, 19/2, 9/2, 9⟩]

/-- Same series with bar 5 bearish (open 19/2, close 5): a genuine V-top. -/
def barsC5W : List Bar :=
  [⟨10, 21/2, 19/2, 10⟩, ⟨10, 21/2, 19/2, 10⟩, ⟨10, 21/2, 19/2, 10⟩,
   ⟨10, 21/2, 19/2, 10⟩, ⟨10, 14, 10, 14⟩, ⟨19/2, 19/2, 9/2, 5⟩]

/-! ## Swing detection (`swings.detect_swings`)

The high (resp. low) column is a `List (Option ℚ)`: `none` is a NaN bar.
`rolling(window=2*w+1, center=True, min_periods=1)` evaluates the max/min
over the window `[i−w, i+w]` clipped to the series, skipping NaN. -/

/-- NaN-skipping max of an accumulator and one cell. -/
def omax : Option ℚ → Option ℚ → Option ℚ
  | none, y => y
  | some a, none => some a
  | some a, some b => some (max a b)

/-- NaN-skipping min. -/
def omin : Option ℚ → Option ℚ → Option ℚ
  | none, y => y
  | some a, none => some a
  | some a, some b => some (min a b)

/-- The cells covered by the centered window of size `2·w+1` at position
`i`, clipped to the series (`min_periods=1` keeps partial windows). -/
def windowSlice (xs : List (Option ℚ)) (w i : ℕ) : List (Option ℚ) :=
  (xs.drop (i - w)).take (i + w + 1 - (i - w))

/-- `highs.rolling(window=2*w+1, center=True, min_periods=1).max()`. -/
def rollingMax (xs : List (Option ℚ)) (w i : ℕ) : Option ℚ :=
  (windowSlice xs w i).foldl omax none

/-- `lows.rolling(window=2*w+1, center=True, min_periods=1).min()`. -/
def rollingMin (xs : List (Option ℚ)) (w i : ℕ) : Option ℚ :=
  (windowSlice xs w i).foldl omin none

/-- `is_high_raw = (highs == rolling_max) & highs.notna()`. -/
def isHighRaw (xs : List (Option ℚ)) (w i : ℕ) : Bool :=
  match xs[i]?, rollingMax xs w i with
  | some (some h), some m => h == m
  | _, _ => false

/-- `is_low_raw = (lows == rolling_min) & lows.notna()`. -/
def isLowRaw (xs : List (Option ℚ)) (w i : ℕ) : Bool :=
  match xs[i]?, rollingMin xs w i with
  | some (some l), some m => l == m
  | _, _ => false

/-- `detect_duplicates`: drop a raw flag whose predecessor also holds
(`arr & ~np.roll(arr, 1)` with the wrapped first entry forced False). -/
def isHighDedup (xs : List (Option ℚ)) (w i : ℕ) : Bool :=
  isHighRaw xs w i && (i == 0 || !isHighRaw xs w (i - 1))

def isLowDedup (xs : List (Option ℚ)) (w i : ℕ) : Bool :=
  isLowRaw xs w i && (i == 0 || !isLowRaw xs w (i - 1))

/-- `swing_high_confirmed`: dedup flags shifted forward by `window`
(`np.roll(…, window)` with `[:window] = False`; positions past the series
end do not exist). -/
def swingHighConfirmed (xs : List (Option ℚ)) (w p : ℕ) : Bool :=
  decide (w ≤ p) && decide (p < xs.length) && isHighDedup xs w (p - w)

def swingLowConfirmed (xs : List (Option ℚ)) (w p : ℕ) : Bool :=
  decide (w ≤ p) && decide (p < xs.length) && isLowDedup xs w (p - w)

/-- `swing_high_price = highs.shift(window)` masked to confirmed rows. -/
def swingHighPrice (xs : List (Option ℚ)) (w p : ℕ) : Option ℚ :=
  if swingHighConfirmed xs w p then (xs[p - w]?).join else none

/-- `swing_low_price = lows.shift(window)` masked to confirmed rows. -/
def swingLowPrice (xs : List (Option ℚ)) (w p : ℕ) : Option ℚ :=
  if swingLowConfirmed xs w p then (xs[p - w]?).join else none

/-! ## Breakout-gated swing classifier (`swings.classify_swings_v2`)

The claims concern the event-processing loop: it consumes the merged swing
events in time order, carrying the label sentinels (`last_h_price = -inf`,
`last_l_price = inf`), the candidate levels (NaN before the first event of
a side), the active levels (seeded with the first valid high/low of the
series) and the trend bias (1 bull, −1 bear, 0 neutral). -/

structure V2State where
  lastH : F
  lastL : F
  candH : Option ℚ
  candL : Option ℚ
  activeH : Option ℚ
  activeL : Option ℚ
  bias : Int
deriving DecidableEq, Repr

/-- `df["high"].dropna().iloc[0]` when any value is present, else NaN. -/
def firstValid (xs : List (Option ℚ)) : Option ℚ :=
  (xs.filterMap id).head?

/-- State before the event loop of `classify_swings_v2`. -/
def v2Init (firstHigh firstLow : Option ℚ) : V2State :=
  ⟨.ninf, .inf, none, none, firstHigh, firstLow, 0⟩

/-- The HIGH-event branch of the loop body.  A comparison against a NaN
level is false, so a `none` active level blocks the gated updates. -/
def v2StepHigh (tol : ℚ) (s : V2State) (price : ℚ) : V2State :=
  let label := classify_swing_high (.fin price) s.lastH tol
  let s1 : V2State := { s with lastH := .fin price, candH := some price }
  if s1.bias = 1 then
    match s1.activeH with
    | some ah =>
        if ah < price then
          let newL : Option ℚ :=
            match s1.candL, s1.activeL with
            | some cl, some al => if al < cl then some cl else some al
            | _, _ => s1.activeL
          { s1 with activeL := newL, activeH := some price }
        else s1
    | none => s1
  else if s1.bias = -1 then
    match s1.activeH with
    | some ah =>
        if ah < price then
          let newL : Option ℚ :=
            match s1.candL with
            | some cl => some cl
            | none => s1.activeL
          { s1 with bias := 1, activeL := newL, activeH := some price }
        else s1
    | none => s1
  else
    { s1 with activeH := some price, bias := if label = .HH then 1 else s1.bias }

/-- The LOW-event branch of the loop body (mirror). -/
def v2StepLow (tol : ℚ) (s : V2State) (price : ℚ) : V2State :=
  let label := classify_swing_low (.fin price) s.lastL tol
  let s1 : V2State := { s with lastL := .fin price, candL := some price }
  if s1.bias = -1 then
    match s1.activeL with
    | some al =>
        if price < al then
          let newH : Option ℚ :=
            match s1.candH, s1.activeH with
            | some ch, some ah => if ch < ah then some ch else some ah
            | _, _ => s1.activeH
          { s1 with activeH := newH, activeL := some price }
        else s1
    | none => s1
  else if s1.bias = 1 then
    match s1.activeL with
    | some al =>
        if price < al then
          let newH : Option ℚ :=
            match s1.candH with
            | some ch => some ch
            | none => s1.activeH
          { s1 with bias := -1, activeH := newH, activeL := some price }
        else s1
    | none => s1
  else
    { s1 with activeL := some price, bias := if label = .LL then -1 else s1.bias }

def v2Step (tol : ℚ) (s : V2State) (e : Side × ℚ) : V2State :=
  match e.1 with
  | .high => v2StepHigh tol s e.2
  | .low => v2StepLow tol s e.2

/-- The whole event loop of `classify_swings_v2`. -/
def v2Run (tol : ℚ) (init : V2State) (events : List (Side × ℚ)) : V2State :=
  events.foldl (v2Step tol) init

/-! ## Structure fusion engine (`reversals.merge_structure_with_events`)

A row of the merged frame carries the classifier columns
`major_high` / `major_low` (`mh` / `ml`, NaN = `none`), the raw
`high` / `low`, and the reversal-event columns already collapsed to their
override prices: the detectors emit a price exactly where the event flag
is set, so `is_climax_top` with `climax_top_price = p` is `climaxTop =
some p` and an unset flag is `none`. -/

structure MRow where
  mh : Option ℚ
  ml : Option ℚ
  hi : Option ℚ
  lo : Option ℚ
  climaxTop : Option ℚ
  climaxBottom : Option ℚ
  consTop : Option ℚ
  consBottom : Option ℚ
deriving DecidableEq, Repr

/-- `override_high_price`: the climax price, then the consecutive price,
taking the minimum when both detectors fire on the same bar. -/
def ovHigh (r : MRow) : Option ℚ :=
  match r.climaxTop, r.consTop with
  | none, k => k
  | some cv, none => some cv
  | some cv, some k => some (min cv k)

/-- `override_low_price` (maximum when both fire). -/
def ovLow (r : MRow) : Option ℚ :=
  match r.climaxBottom, r.consBottom with
  | none, k => k
  | some cv, none => some cv
  | some cv, some k => some (max cv k)

/-- High-side scan state: `curr = none` models `curr_high = np.inf` (no
active level); `lastV2` is `last_v2_high` (NaN = `none`). -/
structure HState where
  curr : Option ℚ
  lastV2 : Option ℚ
deriving DecidableEq, Repr

/-- One bar of the high-side scan, in source order: break
(`high > curr_high` resets to inf; a comparison against NaN or inf is
false), structural update when `major_high` changed since the previous
bar (NaN-aware inequality = `Option` inequality), then override
tightening (`curr_high == inf or ov < curr_high`). -/
def mergeStepHigh (s : HState) (r : MRow) : HState :=
  let c1 : Option ℚ :=
    match s.curr, r.hi with
    | some cv, some hv => if cv < hv then none else some cv
    | cv, _ => cv
  let changed : Bool := r.mh != s.lastV2
  let c2 : Option ℚ :=
    if changed then
      match r.mh with
      | some v => some v
      | none => c1
    else c1
  let lastV2n : Option ℚ := if changed then r.mh else s.lastV2
  let c3 : Option ℚ :=
    match ovHigh r, c2 with
    | some ov, none => some ov
    | some ov, some cv => if ov < cv then some ov else some cv
    | none, cv => cv
  ⟨c3, lastV2n⟩

/-- One bar of the low-side scan (mirror: break on `low < curr_low`,
override keeps the larger price). -/
def mergeStepLow (s : HState) (r : MRow) : HState :=
  let c1 : Option ℚ :=
    match s.curr, r.lo with
    | some cv, some lv => if lv < cv then none else some cv
    | cv, _ => cv
  let changed : Bool := r.ml != s.lastV2
  let c2 : Option ℚ :=
    if changed then
      match r.ml with
      | some v => some v
      | none => c1
    else c1
  let lastV2n : Option ℚ := if changed then r.ml else s.lastV2
  let c3 : Option ℚ :=
    match ovLow r, c2 with
    | some ov, none => some ov
    | some ov, some cv => if cv < ov then some ov else some cv
    | none, cv => cv
  ⟨c3, lastV2n⟩

/-- The emitted `adjusted_major_high` cells of the sequential scan
(`adj_high_vals[i] = curr_high` unless infinite). -/
def mergeScanHighAux (s : HState) : List MRow → List (Option ℚ)
  | [] => []
  | r :: rs =>
      let s2 := mergeStepHigh s r
      s2.curr :: mergeScanHighAux s2 rs

def mergeScanLowAux (s : HState) : List MRow → List (Option ℚ)
  | [] => []
  | r :: rs =>
      let s2 := mergeStepLow s r
      s2.curr :: mergeScanLowAux s2 rs

/-- `len(override_high_indices) == 0 and len(override_low_indices) == 0`
negated: at least one override event exists somewhere. -/
def hasOverride (rows : List MRow) : Bool :=
  rows.any (fun r => (ovHigh r).isSome || (ovLow r).isSome)

/-- `adjusted_major_high` column of `merge_structure_with_events`: the
function returns early with `adjusted = major_high` when no override
exists anywhere; otherwise the scan runs from `curr_high = inf`,
`last_v2_high = NaN`. -/
def adjustedMajorHigh (rows : List MRow) : List (Option ℚ) :=
  if hasOverride rows then mergeScanHighAux ⟨none, none⟩ rows
  else rows.map MRow.mh

def adjustedMajorLow (rows : List MRow) : List (Option ℚ) :=
  if hasOverride rows then mergeScanLowAux ⟨none, none⟩ rows
  else rows.map MRow.ml

/-- Concrete fusion input refuting C1 as stated: bar 0 gets level 8 from a
consecutive override; at bar 1 the classifier emits a new `major_high`
that happens to equal 8, so the scan breaks (high 9 > 8) and re-establishes
8 on the same bar — `adjusted_major_high` is 8 on both bars, never absent,
yet bar 1's high 9 exceeds it. -/
def rowsC1 : List MRow :=
  [⟨some 10, none, some 5, some 1, none, none, some 8, none⟩,
   ⟨some 8, none, some 9, some 1, none, none, none, none⟩]

/-- Concrete fusion input for the amended C1: a climax-top override of 10
and a climax-bottom override of 2 at bar 0, nothing at bar 1. -/
def rowsC1W : List MRow :=
  [⟨none, none, some 5, some 20, some 10, some 2, none, none⟩,
   ⟨none, none, some 7, some 18, none, none, none, none⟩]

/-! ## Theorems -/

theorem qabs (a : ℚ) : |a| = if a < 0 then -a else a := by
  rcases lt_or_le a 0 with h | h
  · rw [if_pos h, abs_of_neg h]
  · rw [if_neg (not_lt.mpr h), abs_of_nonneg h]

theorem mem_insertByIdx {e y : ℕ × Side} {l : List (ℕ × Side)} :
    y ∈ insertByIdx e l ↔ y = e ∨ y ∈ l := by
  induction l with
  | nil => simp [insertByIdx]
  | cons x xs ih =>
      rw [insertByIdx]
      by_cases h : x.1 < e.1
      · rw [if_pos h]
        simp only [List.mem_cons, ih]
        tauto
      · rw [if_neg h]
        simp only [List.mem_cons]

theorem pairwise_insertByIdx {e : ℕ × Side} {l : List (ℕ × Side)}
    (hl : l.Pairwise evOrder)
    (hmem : ∀ y ∈ l, e.2 = Side.low → y.2 = Side.low) :
    (insertByIdx e l).Pairwise evOrder := by
  induction l with
  | nil => simp [insertByIdx]
  | cons x xs ih =>
      rw [List.pairwise_cons] at hl
      by_cases h : x.1 < e.1
      · rw [insertByIdx, if_pos h]
        rw [List.pairwise_cons]
        refine ⟨?_, ih hl.2 (fun y hy => hmem y (List.mem_cons_of_mem _ hy))⟩
        intro y hy
        rcases mem_insertByIdx.mp hy with rfl | hy
        · exact ⟨le_of_lt h, fun heq => absurd heq (ne_of_lt h)⟩
        · exact hl.1 y hy
      · rw [insertByIdx, if_neg h]
        rw [List.pairwise_cons]
        constructor
        · intro y hy
          refine ⟨?_, fun _ hc => ?_⟩
          · rcases List.mem_cons.mp hy with rfl | hy2
            · exact le_of_not_lt h
            · exact le_trans (le_of_not_lt h) (hl.1 y hy2).1
          · have hylow := hmem y hy hc.1
            rw [hylow] at hc
            exact Side.noConfusion hc.2
        · exact List.pairwise_cons.mpr hl

/-- C8: deterministic tie-break in the event merge.  For every pair of
lists of high-event and low-event indices, the merged event list is in
non-decreasing index order, and at an equal confirm index a LOW event is
never placed before a HIGH event — i.e. simultaneous events are ordered
HIGH before LOW. -/
theorem c8_merge_tie_break (hs ls : List ℕ) :
    (merge_sorted_events hs ls).Pairwise evOrder := by
  have key : ∀ L : List (ℕ × Side),
      L.Pairwise (fun a b => a.2 = Side.low → b.2 = Side.low) →
      (stableSortByIdx L).Pairwise evOrder := by
    intro L
    induction L with
    | nil => intro _; simp [stableSortByIdx]
    | cons x xs ih =>
        intro hL
        rw [List.pairwise_cons] at hL
        rw [stableSortByIdx]
        refine pairwise_insertByIdx (ih hL.2) ?_
        intro y hy hx
        have hperm : y ∈ xs := by
          have : ∀ M : List (ℕ × Side), ∀ z ∈ stableSortByIdx M, z ∈ M := by
            intro M
            induction M with
            | nil => intro z hz; simp [stableSortByIdx] at hz
            | cons m ms ihm =>
                intro z hz
                rw [stableSortByIdx] at hz
                rcases mem_insertByIdx.mp hz with rfl | hz
                · exact List.mem_cons_self _ _
                · exact List.mem_cons_of_mem _ (ihm z hz)
          exact this xs y hy
        exact hL.1 y hperm hx
  refine key _ ?_
  rw [List.pairwise_append]
  refine ⟨?_, ?_, ?_⟩
  · exact List.pairwise_map.mpr (List.pairwise_of_forall (fun _ _ h => Side.noConfusion h))
  · exact List.pairwise_map.mpr (List.pairwise_of_forall (fun _ _ _ => rfl))
  · intro a ha b hb hc
    rcases List.mem_map.mp hb with ⟨i, _, rfl⟩
    rfl

/-- C6: swing label rule.  With a finite positive previous same-side price,
the label is DT (highs) / DB (lows) iff `|p − last| / last ≤ tol` with the
boundary inclusive; outside the tolerance it is HH when `p > last` and LH
when `p < last` (mirror LL / HL for lows); with no prior reference (the
−inf / +inf sentinels) the label is always HH / LL; and 100.0 followed by
100.05 with tol = 0.001 labels DT. -/
theorem c6_label_rule (p last tol : ℚ) (hlast : 0 < last) :
    (classify_swing_high (.fin p) (.fin last) tol = .DT ↔ |p - last| / last ≤ tol) ∧
    (classify_swing_low (.fin p) (.fin last) tol = .DB ↔ |p - last| / last ≤ tol) ∧
    (¬ |p - last| / last ≤ tol →
      (last < p → classify_swing_high (.fin p) (.fin last) tol = .HH) ∧
      (p < last → classify_swing_high (.fin p) (.fin last) tol = .LH) ∧
      (last < p → classify_swing_low (.fin p) (.fin last) tol = .HL) ∧
      (p < last → classify_swing_low (.fin p) (.fin last) tol = .LL)) ∧
    (classify_swing_high (.fin p) .ninf tol = .HH) ∧
    (classify_swing_low (.fin p) .inf tol = .LL) ∧
    (classify_swing_high (.fin (10005/100)) (.fin 100) (1/1000) = .DT) := by
  have hle : ¬ last ≤ 0 := not_le.mpr hlast
  refine ⟨?_, ?_, ?_, ?_, ?_, ?_⟩
  · simp [classify_swing_high, compare_prices, F.le0, F.isFinite, diffPct, F.leQ, F.gtQ, hle]
    by_cases h : |p - last| / last ≤ tol
    · simp [h]
    · simp [h]
      by_cases h2 : last < p <;> simp [h2]
  · simp [classify_swing_low, compare_prices, F.le0, F.isFinite, diffPct, F.leQ, F.gtQ, hle]
    by_cases h : |p - last| / last ≤ tol
    · simp [h]
    · simp [h]
      by_cases h2 : last < p <;> simp [h2]
  · intro h
    refine ⟨?_, ?_, ?_, ?_⟩ <;> intro h2 <;>
      simp [classify_swing_high, classify_swing_low, compare_prices, F.le0, F.isFinite,
        diffPct, F.leQ, F.gtQ, hle, h, h2, not_lt_of_lt h2]
  · rfl
  · rfl
  · have h20 : |(1:ℚ)/20| = 1/20 := abs_of_nonneg (by norm_num)
    norm_num [classify_swing_high, compare_prices, F.le0, F.isFinite, diffPct, F.leQ, F.gtQ, h20]

/-- Witness for C6 at p = 101, last = 100, tol = 1/100. -/
theorem c6_label_rule_witness :
    classify_swing_high (.fin 101) (.fin 100) (1/100) = .DT := by
  have h := (c6_label_rule 101 100 (1/100) (by norm_num)).1
  exact h.mpr (by norm_num)

/-- C9: implicit safety of swing classification.  `compare_prices` returns a
comparison only when the previous price is finite and strictly positive (so
the tolerance quotient is never evaluated with a zero or invalid divisor);
whenever the previous price is ≤ 0, infinite or NaN it returns `none` and
the labels default to HH (high side) and LL (low side), never DT/DB or
LH/HL. -/
theorem c9_compare_prices_guard (current last : F) (tol : ℚ) :
    (compare_prices current last tol ≠ none → ∃ l : ℚ, last = .fin l ∧ 0 < l) ∧
    ((¬ ∃ l : ℚ, last = .fin l ∧ 0 < l) →
      compare_prices current last tol = none ∧
      classify_swing_high current last tol = .HH ∧
      classify_swing_low current last tol = .LL) := by
  constructor
  · intro h
    cases last with
    | nan => simp [compare_prices, F.le0, F.isFinite] at h
    | inf => simp [compare_prices, F.le0, F.isFinite] at h
    | ninf => simp [compare_prices, F.le0, F.isFinite] at h
    | fin l =>
        refine ⟨l, rfl, ?_⟩
        by_contra hl
        simp [compare_prices, F.le0, F.isFinite, not_lt.mp hl] at h
  · intro h
    have hnone : compare_prices current last tol = none := by
      cases last with
      | nan => simp [compare_prices, F.le0, F.isFinite]
      | inf => simp [compare_prices, F.le0, F.isFinite]
      | ninf => simp [compare_prices, F.le0, F.isFinite]
      | fin l =>
          have hl : ¬ 0 < l := fun hc => h ⟨l, rfl, hc⟩
          simp [compare_prices, F.le0, F.isFinite, not_lt.mp hl]
    exact ⟨hnone, by simp [classify_swing_high, hnone], by simp [classify_swing_low, hnone]⟩

/-- Witness for C9 at the −inf sentinel. -/
theorem c9_compare_prices_guard_witness :
    compare_prices (.fin 5) .ninf 0 = none ∧
    classify_swing_high (.fin 5) .ninf 0 = .HH ∧
    classify_swing_low (.fin 5) .ninf 0 = .LL := by
  refine (c9_compare_prices_guard (.fin 5) .ninf 0).2 ?_
  rintro ⟨l, hl, -⟩
  cases hl

theorem streaksAux_cons (p : Bar → Bool) (s : ℕ) (b : Bar) (bs : List Bar) :
    streaksAux p s (b :: bs) =
      (if p b then s + 1 else 0) :: streaksAux p (if p b then s + 1 else 0) bs := rfl

theorem streaksAux_run (p : Bar → Bool) :
    ∀ (bs : List Bar) (a s i : ℕ), s ≤ i →
    (∀ j, s ≤ j → j ≤ i → (bs[j]?).map p = some true) →
    (s = 0 ∨ (bs[s - 1]?).map p = some false) →
    (streaksAux p a bs)[i]? = some (if s = 0 then a + i + 1 else i - s + 1) := by
  intro bs
  induction bs with
  | nil =>
      intro a s i hsi hrun _
      have := hrun i hsi le_rfl
      simp at this
  | cons b bs ih =>
      intro a s i hsi hrun hreset
      cases i with
      | zero =>
          have hs0 : s = 0 := Nat.le_zero.mp hsi
          subst hs0
          have hb := hrun 0 le_rfl le_rfl
          simp at hb
          simp [streaksAux_cons, hb]
      | succ i' =>
          cases s with
          | zero =>
              have hb := hrun 0 le_rfl (Nat.zero_le _)
              simp at hb
              have hrec := ih (a + 1) 0 i' (Nat.zero_le _)
                (fun j h1 h2 => by
                  have := hrun (j + 1) (Nat.zero_le _) (Nat.succ_le_succ h2)
                  simpa using this)
                (Or.inl rfl)
              rw [if_pos rfl] at hrec
              rw [streaksAux_cons, if_pos hb, List.getElem?_cons_succ, hrec,
                if_pos rfl]
              simp only [Option.some.injEq]
              omega
          | succ s' =>
              have hres : ((b :: bs)[s']?).map p = some false := by
                rcases hreset with h0 | hr
                · exact absurd h0 (Nat.succ_ne_zero s')
                · simpa using hr
              cases s' with
              | zero =>
                  have hb : p b = false := by simpa using hres
                  have hrec := ih 0 0 i' (Nat.zero_le _)
                    (fun j h1 h2 => by
                      have := hrun (j + 1) (Nat.succ_le_succ (Nat.zero_le _))
                        (Nat.succ_le_succ h2)
                      simpa using this)
                    (Or.inl rfl)
                  rw [if_pos rfl] at hrec
                  rw [streaksAux_cons, if_neg (by simp [hb]), List.getElem?_cons_succ,
                    hrec, if_neg (Nat.succ_ne_zero 0)]
                  simp only [Option.some.injEq]
                  omega
              | succ s'' =>
                  have hrec := ih (if p b then a + 1 else 0) (s'' + 1) i'
                    (by omega)
                    (fun j h1 h2 => by
                      have := hrun (j + 1) (by omega) (Nat.succ_le_succ h2)
                      simpa using this)
                    (Or.inr (by simpa using hres))
                  rw [if_neg (Nat.succ_ne_zero s'')] at hrec
                  rw [streaksAux_cons, List.getElem?_cons_succ, hrec,
                    if_neg (Nat.succ_ne_zero (s'' + 1))]
                  simp only [Option.some.injEq]
                  omega

/-- C2 (amended): for a run of at least `consecutive_count` same-colored
bars starting at bar `s ≥ 1` (the preceding bar has the other color), the
detector fires exactly once inside the run — at bar `s + count − 1`, where
the run length first equals `consecutive_count` — and the override price is
the high (bear run) / low (bull run) of the bar immediately BEFORE the bar
that started the run (`trigger_index − consecutive_count`, i.e. bar
`s − 1`); no other bar of the run fires. -/
theorem c2_consecutive_fire (bars : List Bar) (count s e : ℕ)
    (hc : 1 ≤ count) (hs : 1 ≤ s) (hse : s + count ≤ e) :
    ((∀ j, s ≤ j → j < e → (bars[j]?).map isBear = some true) →
      ((bars[s - 1]?).map isBear = some false) →
      consecutiveBearStart bars count (s + count - 1) = true ∧
      consecutiveTopPrice bars count (s + count - 1) = (bars[s - 1]?).map Bar.h ∧
      ∀ i, s ≤ i → i < e → i ≠ s + count - 1 → consecutiveBearStart bars count i = false) ∧
    ((∀ j, s ≤ j → j < e → (bars[j]?).map isBull = some true) →
      ((bars[s - 1]?).map isBull = some false) →
      consecutiveBullStart bars count (s + count - 1) = true ∧
      consecutiveBottomPrice bars count (s + count - 1) = (bars[s - 1]?).map Bar.l ∧
      ∀ i, s ≤ i → i < e → i ≠ s + count - 1 → consecutiveBullStart bars count i = false) := by
  have main : ∀ (p : Bar → Bool),
      (∀ j, s ≤ j → j < e → (bars[j]?).map p = some true) →
      ((bars[s - 1]?).map p = some false) →
      ((streaksAux p 0 bars)[s + count - 1]? = some count ∧
        ∀ i, s ≤ i → i < e → i ≠ s + count - 1 →
          (streaksAux p 0 bars)[i]? = some (i - s + 1) ∧ i - s + 1 ≠ count) := by
    intro p hrun hres
    have hstreak : ∀ i, s ≤ i → i < e →
        (streaksAux p 0 bars)[i]? = some (i - s + 1) := by
      intro i h1 h2
      have heq := streaksAux_run p bars 0 s i h1
        (fun j hj1 hj2 => hrun j hj1 (lt_of_le_of_lt hj2 h2))
        (Or.inr hres)
      rw [heq, if_neg (by omega)]
    constructor
    · have h1 : s ≤ s + count - 1 := by omega
      have h2 : s + count - 1 < e := by omega
      rw [hstreak _ h1 h2]
      congr 1
      omega
    · intro i h1 h2 h3
      exact ⟨hstreak i h1 h2, by omega⟩
  constructor
  · intro hrun hres
    obtain ⟨hfire, hrest⟩ := main isBear hrun hres
    have hbs : consecutiveBearStart bars count (s + count - 1) = true := by
      simp only [consecutiveBearStart, bearStreaks, hfire]
      simp
      omega
    refine ⟨hbs, ?_, ?_⟩
    · rw [consecutiveTopPrice, if_pos hbs]
      have hidx : s + count - 1 - count = s - 1 := by omega
      rw [hidx]
    · intro i h1 h2 h3
      obtain ⟨hst, hne⟩ := hrest i h1 h2 h3
      simp only [consecutiveBearStart, bearStreaks, hst]
      simp [hne]
  · intro hrun hres
    obtain ⟨hfire, hrest⟩ := main isBull hrun hres
    have hbs : consecutiveBullStart bars count (s + count - 1) = true := by
      simp only [consecutiveBullStart, bullStreaks, hfire]
      simp
      omega
    refine ⟨hbs, ?_, ?_⟩
    · rw [consecutiveBottomPrice, if_pos hbs]
      have hidx : s + count - 1 - count = s - 1 := by omega
      rw [hidx]
    · intro i h1 h2 h3
      obtain ⟨hst, hne⟩ := hrest i h1 h2 h3
      simp only [consecutiveBullStart, bullStreaks, hst]
      simp [hne]

/-- Witness for the amended C2: on `barsC2` (bear run at bars 10–12,
count = 3) the detector fires at bar 12 and anchors to bar 9's high. -/
theorem c2_consecutive_fire_witness :
    consecutiveBearStart barsC2 3 12 = true ∧
    consecutiveTopPrice barsC2 3 12 = (barsC2[9]?).map Bar.h := by
  have h := (c2_consecutive_fire barsC2 3 10 13 (by norm_num) (by norm_num)
    (by norm_num)).1
    (fun j h1 h2 => by interval_cases j <;> rfl)
    (by rfl)
  norm_num at h
  exact ⟨h.1, h.2.1⟩

/-- C2 counterexample: the claim as stated anchors the override to the high
of the bar that started the run (bar 10, high 7).  The code anchors to bar
`trigger − count` = 9 instead: on `barsC2` the event at bar 12 carries
price 50 = high of bar 9, not 7 = high of bar 10. -/
theorem c2_counterexample :
    consecutiveBearStart barsC2 3 12 = true ∧
    consecutiveTopPrice barsC2 3 12 = some 50 ∧
    (barsC2[10]?).map Bar.h = some 7 ∧
    consecutiveTopPrice barsC2 3 12 ≠ (barsC2[10]?).map Bar.h := by
  refine ⟨rfl, rfl, rfl, ?_⟩
  intro h
  rw [show consecutiveTopPrice barsC2 3 12 = some 50 from rfl,
    show (barsC2[10]?).map Bar.h = some 7 from rfl] at h
  exact absurd (Option.some.inj h) (by norm_num)

/-- C10: if the streak reaches `consecutive_count` at a bar with fewer than
`consecutive_count` bars before it (no bar exists `count` positions back),
no event is emitted: the start flags are False and the override price
columns are NaN at every such bar, for both directions, so the guarded
`start_pos ≥ 0` access never reads before index 0. -/
theorem c10_consecutive_guard (bars : List Bar) (count i : ℕ) (hi : i < count) :
    consecutiveBearStart bars count i = false ∧
    consecutiveTopPrice bars count i = none ∧
    consecutiveBullStart bars count i = false ∧
    consecutiveBottomPrice bars count i = none := by
  have h1 : consecutiveBearStart bars count i = false := by
    rw [consecutiveBearStart]
    cases hbs : (bearStreaks bars)[i]? with
    | none => rfl
    | some s => simp [Nat.not_le.mpr hi]
  have h2 : consecutiveBullStart bars count i = false := by
    rw [consecutiveBullStart]
    cases hbs : (bullStreaks bars)[i]? with
    | none => rfl
    | some s => simp [Nat.not_le.mpr hi]
  exact ⟨h1, by simp [consecutiveTopPrice, h1], h2, by simp [consecutiveBottomPrice, h2]⟩

/-- Witness for C10: three bear bars with count = 3 — the streak reaches 3
at bar 2, which is less than 3 bars from the start, and nothing fires. -/
theorem c10_consecutive_guard_witness :
    consecutiveBearStart [⟨2, 3, 0, 1⟩, ⟨2, 3, 0, 1⟩, ⟨2, 3, 0, 1⟩] 3 2 = false ∧
    consecutiveTopPrice [⟨2, 3, 0, 1⟩, ⟨2, 3, 0, 1⟩, ⟨2, 3, 0, 1⟩] 3 2 = none ∧
    consecutiveBullStart [⟨2, 3, 0, 1⟩, ⟨2, 3, 0, 1⟩, ⟨2, 3, 0, 1⟩] 3 2 = false ∧
    consecutiveBottomPrice [⟨2, 3, 0, 1⟩, ⟨2, 3, 0, 1⟩, ⟨2, 3, 0, 1⟩] 3 2 = none :=
  c10_consecutive_guard _ 3 2 (by norm_num)

/-- C5 (amended): the V-top fires at bar `i+1` exactly when bar `i` is a
bullish climax bar (body above `atr_multiplier ×` the rolling true-range
baseline, close above open) AND bar `i+1` is itself bearish (close < open)
AND `close[i+1] < open[i]` AND `body[i+1] > 0.5 × body[i]`; when it fires,
the climax-top price is the high of bar `i` (V-bottom mirrors with the low
of bar `i`).  The claim as stated omits the "bar `i+1` is bearish"
condition. -/
theorem c5_climax_rule (bars : List Bar) (lookback : ℕ) (mult : ℚ) (i : ℕ)
    (pb b : Bar) (hpb : bars[i]? = some pb) (hb : bars[i + 1]? = some b) :
    (isVTop bars lookback mult (i + 1) = true ↔
      (isClimaxBar bars lookback mult i = true ∧ pb.o < pb.c ∧ b.c < b.o ∧
        body pb * (1/2) < body b ∧ b.c < pb.o)) ∧
    (isVTop bars lookback mult (i + 1) = true →
      climaxTopPrice bars lookback mult (i + 1) = some pb.h) ∧
    (isVBottom bars lookback mult (i + 1) = true ↔
      (isClimaxBar bars lookback mult i = true ∧ pb.c < pb.o ∧ b.o < b.c ∧
        body pb * (1/2) < body b ∧ pb.o < b.c)) ∧
    (isVBottom bars lookback mult (i + 1) = true →
      climaxBottomPrice bars lookback mult (i + 1) = some pb.l) ∧
    (isClimaxBar bars lookback mult i = true ↔ atrAt bars lookback i * mult < body pb) := by
  refine ⟨?_, ?_, ?_, ?_, ?_⟩
  · rw [isVTop, hpb, hb]
    simp [isBull, isBear]
    tauto
  · intro hfire
    rw [climaxTopPrice, if_pos hfire]
    simp [hpb]
  · rw [isVBottom, hpb, hb]
    simp [isBull, isBear]
    tauto
  · intro hfire
    rw [climaxBottomPrice, if_pos hfire]
    simp [hpb]
  · rw [isClimaxBar, hpb]
    simp

/-- Witness for the amended C5: on `barsC5W` the V-top fires at bar 5 with
price 14 = high of climax bar 4. -/
theorem c5_climax_rule_witness :
    isVTop barsC5W 5 2 5 = true ∧ climaxTopPrice barsC5W 5 2 5 = some 14 := by
  have h := c5_climax_rule barsC5W 5 2 4 ⟨10, 14, 10, 14⟩ ⟨19/2, 19/2, 9/2, 5⟩ rfl rfl
  have hclimax : isClimaxBar barsC5W 5 2 4 = true := by
    have hatr : atrAt barsC5W 5 4 = 8/5 := by
      norm_num [atrAt, trList, trAux, barsC5W, qabs, List.take, List.drop]
    rw [h.2.2.2.2, hatr, body]
    norm_num [qabs]
  have hfire : isVTop barsC5W 5 2 5 = true := by
    refine (h.1).mpr ⟨hclimax, by norm_num, by norm_num, ?_, by norm_num⟩
    norm_num [body, qabs]
  exact ⟨hfire, by simpa using h.2.1 hfire⟩

/-- C5 counterexample: on `barsC5` bar 4 is a bullish climax bar, bar 5
closes at 9 < open[4] = 10 with body 4 > 0.5 × body[4] = 2 — all the
conditions of the claim — yet the code fires no V-top at bar 5, because
bar 5 is not bearish (open 5 < close 9). -/
theorem c5_counterexample :
    barsC5[4]? = some ⟨10, 14, 10, 14⟩ ∧
    barsC5[5]? = some ⟨5, 19/2, 9/2, 9⟩ ∧
    isClimaxBar barsC5 5 2 4 = true ∧
    (10 : ℚ) < 14 ∧
    (9 : ℚ) < 10 ∧
    body ⟨10, 14, 10, 14⟩ * (1/2) < body ⟨5, 19/2, 9/2, 9⟩ ∧
    isVTop barsC5 5 2 5 = false ∧
    climaxTopPrice barsC5 5 2 5 = none := by
  have hatr : atrAt barsC5 5 4 = 8/5 := by
    norm_num [atrAt, trList, trAux, barsC5, qabs, List.take, List.drop]
  have hclimax : isClimaxBar barsC5 5 2 4 = true := by
    rw [isClimaxBar, show barsC5[4]? = some ⟨10, 14, 10, 14⟩ from rfl, hatr]
    norm_num [body, qabs]
  have hnofire : isVTop barsC5 5 2 5 = false := by
    rw [show (5 : ℕ) = 4 + 1 from rfl, isVTop,
      show barsC5[4]? = some ⟨10, 14, 10, 14⟩ from rfl,
      show barsC5[4 + 1]? = some ⟨5, 19/2, 9/2, 9⟩ from rfl]
    simp [isBear]
    norm_num
  refine ⟨rfl, rfl, hclimax, by norm_num, by norm_num, ?_, hnofire, ?_⟩
  · norm_num [body, qabs]
  · rw [climaxTopPrice, hnofire]
    simp

theorem foldl_omax_acc : ∀ (l : List (Option ℚ)) (a : ℚ),
    ∃ m, l.foldl omax (some a) = some m ∧ a ≤ m := by
  intro l
  induction l with
  | nil => exact fun a => ⟨a, rfl, le_rfl⟩
  | cons x l ih =>
      intro a
      cases x with
      | none => exact ih a
      | some b =>
          obtain ⟨m, hm, hle⟩ := ih (max a b)
          exact ⟨m, hm, le_trans (le_max_left a b) hle⟩

theorem foldl_omax_mem : ∀ (l : List (Option ℚ)) (acc : Option ℚ) (v : ℚ),
    some v ∈ l → ∃ m, l.foldl omax acc = some m ∧ v ≤ m := by
  intro l
  induction l with
  | nil => intro acc v hv; simp at hv
  | cons x l ih =>
      intro acc v hv
      rcases List.mem_cons.mp hv with rfl | hv
      · cases acc with
        | none =>
            obtain ⟨m, hm, hle⟩ := foldl_omax_acc l v
            exact ⟨m, hm, hle⟩
        | some a =>
            obtain ⟨m, hm, hle⟩ := foldl_omax_acc l (max a v)
            exact ⟨m, hm, le_trans (le_max_right a v) hle⟩
      · exact ih (omax acc x) v hv

theorem foldl_omin_acc : ∀ (l : List (Option ℚ)) (a : ℚ),
    ∃ m, l.foldl omin (some a) = some m ∧ m ≤ a := by
  intro l
  induction l with
  | nil => exact fun a => ⟨a, rfl, le_rfl⟩
  | cons x l ih =>
      intro a
      cases x with
      | none => exact ih a
      | some b =>
          obtain ⟨m, hm, hle⟩ := ih (min a b)
          exact ⟨m, hm, le_trans hle (min_le_left a b)⟩

theorem foldl_omin_mem : ∀ (l : List (Option ℚ)) (acc : Option ℚ) (v : ℚ),
    some v ∈ l → ∃ m, l.foldl omin acc = some m ∧ m ≤ v := by
  intro l
  induction l with
  | nil => intro acc v hv; simp at hv
  | cons x l ih =>
      intro acc v hv
      rcases List.mem_cons.mp hv with rfl | hv
      · cases acc with
        | none =>
            obtain ⟨m, hm, hle⟩ := foldl_omin_acc l v
            exact ⟨m, hm, hle⟩
        | some a =>
            obtain ⟨m, hm, hle⟩ := foldl_omin_acc l (min a v)
            exact ⟨m, hm, le_trans hle (min_le_right a v)⟩
      · exact ih (omin acc x) v hv

/-- A present cell inside the clipped window is a member of the slice. -/
theorem mem_windowSlice {xs : List (Option ℚ)} {w i j : ℕ} {v : ℚ}
    (h1 : i - w ≤ j) (h2 : j ≤ i + w) (hv : xs[j]? = some (some v)) :
    some v ∈ windowSlice xs w i := by
  have hk : (windowSlice xs w i)[j - (i - w)]? = some (some v) := by
    rw [windowSlice, List.getElem?_take_of_lt (by omega), List.getElem?_drop]
    rw [show i - w + (j - (i - w)) = j by omega]
    exact hv
  exact List.getElem?_mem hk

theorem isHighRaw_spec {xs : List (Option ℚ)} {w i : ℕ}
    (h : isHighRaw xs w i = true) :
    ∃ ha, xs[i]? = some (some ha) ∧ rollingMax xs w i = some ha := by
  rw [isHighRaw] at h
  split at h
  · rename_i hval m heq1 heq2
    refine ⟨hval, heq1, ?_⟩
    rw [heq2]
    exact congrArg some ((beq_iff_eq.mp h).symm)
  · simp at h

theorem isLowRaw_spec {xs : List (Option ℚ)} {w i : ℕ}
    (h : isLowRaw xs w i = true) :
    ∃ la, xs[i]? = some (some la) ∧ rollingMin xs w i = some la := by
  rw [isLowRaw] at h
  split at h
  · rename_i lval m heq1 heq2
    refine ⟨lval, heq1, ?_⟩
    rw [heq2]
    exact congrArg some ((beq_iff_eq.mp h).symm)
  · simp at h

/-- C3 (amended): `detect_swings` raises no error on a short series (it is
total), and a series of at most `window` bars yields an empty swing result
(all confirmation flags False, all swing prices NaN).  Series with between
`window + 1` and `2·window` bars, however, can still confirm swings,
because `min_periods=1` lets the centered rolling window operate on
partial windows. -/
theorem c3_short_series_empty (highs lows : List (Option ℚ)) (w p : ℕ)
    (hw : 1 ≤ w) (hlen : highs.length ≤ w) (hlenl : lows.length ≤ w) :
    swingHighConfirmed highs w p = false ∧ swingHighPrice highs w p = none ∧
    swingLowConfirmed lows w p = false ∧ swingLowPrice lows w p = none := by
  have h1 : swingHighConfirmed highs w p = false := by
    rw [swingHighConfirmed]
    by_cases h : w ≤ p
    · have h2 : ¬ p < highs.length := by omega
      simp [h, h2]
    · simp [h]
  have h2 : swingLowConfirmed lows w p = false := by
    rw [swingLowConfirmed]
    by_cases h : w ≤ p
    · have h2 : ¬ p < lows.length := by omega
      simp [h, h2]
    · simp [h]
  exact ⟨h1, by simp [swingHighPrice, h1], h2, by simp [swingLowPrice, h2]⟩

/-- Witness for the amended C3: two NaN-free bars, window 2. -/
theorem c3_short_series_empty_witness :
    swingHighConfirmed [some (5:ℚ), some 3] 2 1 = false ∧
    swingHighPrice [some (5:ℚ), some 3] 2 1 = none ∧
    swingLowConfirmed [some (1:ℚ), some 2] 2 1 = false ∧
    swingLowPrice [some (1:ℚ), some 2] 2 1 = none :=
  c3_short_series_empty [some 5, some 3] [some 1, some 2] 2 1 (by norm_num)
    (by norm_num) (by norm_num)

/-- C3 counterexample: the claim as stated says every series shorter than
`2·window + 1` bars yields an empty swing result.  With window 1 the
two-bar series [5, 3] (length 2 < 3) confirms a swing high at bar 1 with
price 5, because `min_periods=1` evaluates the rolling max on the clipped
window. -/
theorem c3_counterexample :
    (1 : ℕ) ≤ 1 ∧
    List.length [some (5:ℚ), some 3] < 2 * 1 + 1 ∧
    swingHighConfirmed [some (5:ℚ), some 3] 1 1 = true ∧
    swingHighPrice [some (5:ℚ), some 3] 1 1 = some 5 :=
  ⟨le_rfl, by norm_num, rfl, rfl⟩

/-- C4 (amended): every confirmed swing is reported at
`confirm_index = anchor_index + window` exactly; the anchor is an extremum
of the inclusive symmetric range `[anchor − window, anchor + window]`
clipped to the series; and no anchor among the LAST `window` bars ever
confirms.  Anchors among the FIRST `window` bars, however, can confirm
(their range is clipped at the series start by `min_periods=1`). -/
theorem c4_swing_timing (w : ℕ) (hw : 1 ≤ w) :
    (∀ (highs : List (Option ℚ)) (p : ℕ), swingHighConfirmed highs w p = true →
      w ≤ p ∧ p < highs.length ∧ (p - w) + w = p ∧ p - w < highs.length - w ∧
      ∃ ha, highs[p - w]? = some (some ha) ∧
        swingHighPrice highs w p = some ha ∧
        ∀ m v, (p - w) - w ≤ m → m ≤ (p - w) + w → highs[m]? = some (some v) →
          v ≤ ha) ∧
    (∀ (lows : List (Option ℚ)) (p : ℕ), swingLowConfirmed lows w p = true →
      w ≤ p ∧ p < lows.length ∧ (p - w) + w = p ∧ p - w < lows.length - w ∧
      ∃ la, lows[p - w]? = some (some la) ∧
        swingLowPrice lows w p = some la ∧
        ∀ m v, (p - w) - w ≤ m → m ≤ (p - w) + w → lows[m]? = some (some v) →
          la ≤ v) := by
  constructor
  · intro highs p hconf
    have hc := hconf
    rw [swingHighConfirmed] at hc
    simp only [Bool.and_eq_true, decide_eq_true_eq] at hc
    obtain ⟨⟨hwp, hplen⟩, hded⟩ := hc
    rw [isHighDedup, Bool.and_eq_true] at hded
    obtain ⟨ha, hx, hmax⟩ := isHighRaw_spec hded.1
    refine ⟨hwp, hplen, by omega, by omega, ha, hx, ?_, ?_⟩
    · rw [swingHighPrice, if_pos hconf, hx]
      rfl
    · intro m v hm1 hm2 hv
      obtain ⟨mx, hmx, hle⟩ := foldl_omax_mem _ none v
        (mem_windowSlice hm1 hm2 hv)
      rw [rollingMax] at hmax
      rw [hmax] at hmx
      exact le_trans hle (le_of_eq (Option.some.inj hmx).symm)
  · intro lows p hconf
    have hc := hconf
    rw [swingLowConfirmed] at hc
    simp only [Bool.and_eq_true, decide_eq_true_eq] at hc
    obtain ⟨⟨hwp, hplen⟩, hded⟩ := hc
    rw [isLowDedup, Bool.and_eq_true] at hded
    obtain ⟨la, hx, hmin⟩ := isLowRaw_spec hded.1
    refine ⟨hwp, hplen, by omega, by omega, la, hx, ?_, ?_⟩
    · rw [swingLowPrice, if_pos hconf, hx]
      rfl
    · intro m v hm1 hm2 hv
      obtain ⟨mx, hmx, hle⟩ := foldl_omin_mem _ none v
        (mem_windowSlice hm1 hm2 hv)
      rw [rollingMin] at hmin
      rw [hmin] at hmx
      exact le_trans (le_of_eq (Option.some.inj hmx)) hle

/-- Witness for the amended C4: highs [1,1,9,1,1], window 2 — the swing at
anchor 2 confirms at bar 4 = 2 + 2, and the anchor is not among the last
two bars as an anchor index. -/
theorem c4_swing_timing_witness :
    (4 : ℕ) - 2 + 2 = 4 ∧
    (4 : ℕ) - 2 < List.length [some (1:ℚ), some 1, some 9, some 1, some 1] - 2 := by
  have h := (c4_swing_timing 2 (by norm_num)).1
    [some (1:ℚ), some 1, some 9, some 1, some 1] 4 rfl
  exact ⟨h.2.2.1, h.2.2.2.1⟩

/-- C4 counterexample: the claim as stated says none of the first `window`
bars ever confirms a swing.  With highs [9,1,1,1,1] and window 2, bar 0 —
inside the first `window` bars and judged only over the clipped range
[0, 2] — is confirmed as a swing high (at confirm index 2, price 9). -/
theorem c4_counterexample :
    swingHighConfirmed [some (9:ℚ), some 1, some 1, some 1, some 1] 2 2 = true ∧
    swingHighPrice [some (9:ℚ), some 1, some 1, some 1, some 1] 2 2 = some 9 ∧
    (2 : ℕ) - 2 < 2 :=
  ⟨rfl, rfl, by norm_num⟩

theorem v2StepLow_preserves (tol : ℚ) (s : V2State) (price : ℚ)
    (hb : s.bias ≠ 1) (hc : s.candH = none) :
    (v2StepLow tol s price).activeH = s.activeH ∧
    (v2StepLow tol s price).bias ≠ 1 ∧
    (v2StepLow tol s price).candH = none := by
  obtain ⟨lH, lL, cH, cL, aH, aL, b⟩ := s
  simp only at hb hc
  subst hc
  rw [v2StepLow]
  by_cases hbm : b = -1
  · simp only [hbm, if_pos rfl]
    cases aL with
    | none => exact ⟨rfl, by simp, rfl⟩
    | some al =>
        by_cases hp : price < al
        · simp [hp]
        · simp [hp]
  · rw [if_neg (by simpa using hbm), if_neg (by simpa using hb)]
    refine ⟨rfl, ?_, rfl⟩
    by_cases hll : classify_swing_low (.fin price) lL tol = .LL
    · simp [hll]
    · simpa [hll] using hb

theorem v2Run_low_only (tol : ℚ) :
    ∀ (events : List (Side × ℚ)) (s : V2State),
      (∀ e ∈ events, e.1 = Side.low) →
      s.bias ≠ 1 → s.candH = none →
      (v2Run tol s events).activeH = s.activeH ∧
      (v2Run tol s events).bias ≠ 1 ∧
      (v2Run tol s events).candH = none := by
  intro events
  induction events with
  | nil => exact fun s _ hb hc => ⟨rfl, hb, hc⟩
  | cons e es ih =>
      intro s hlow hb hc
      have he : e.1 = Side.low := hlow e (List.mem_cons_self _ _)
      have hstep := v2StepLow_preserves tol s e.2 hb hc
      have hrec := ih (v2Step tol s e)
        (fun x hx => hlow x (List.mem_cons_of_mem _ hx))
        (by rw [v2Step, he]; exact hstep.2.1)
        (by rw [v2Step, he]; exact hstep.2.2)
      refine ⟨?_, hrec.2.1, hrec.2.2⟩
      rw [v2Run] at hrec ⊢
      rw [List.foldl_cons, hrec.1, v2Step, he, hstep.1]

/-- C7: breakout-gated classifier.  For any event stream consisting only of
LOW events (in particular a sequence of ever-lower swing lows with no
intervening swing high), at every point of the scan `active_major_high`
still equals its initial value (the first valid high of the series) and
the trend bias never becomes BULL (1). -/
theorem c7_lows_never_move_high (tol : ℚ) (fh fl : Option ℚ)
    (events : List (Side × ℚ)) (hlow : ∀ e ∈ events, e.1 = Side.low) (k : ℕ) :
    (v2Run tol (v2Init fh fl) (events.take k)).activeH = fh ∧
    (v2Run tol (v2Init fh fl) (events.take k)).bias ≠ 1 := by
  have h := v2Run_low_only tol (events.take k) (v2Init fh fl)
    (fun e he => hlow e (List.mem_of_mem_take he))
    (by simp [v2Init]) (by simp [v2Init])
  exact ⟨h.1, h.2.1⟩

/-- Witness for C7: two ever-lower lows on a series whose first valid high
is 10. -/
theorem c7_lows_never_move_high_witness :
    (v2Run (1/1000) (v2Init (firstValid [none, some 10, some 12]) (some 3))
      [(Side.low, 5), (Side.low, 4)]).activeH = firstValid [none, some 10, some 12] ∧
    (v2Run (1/1000) (v2Init (firstValid [none, some 10, some 12]) (some 3))
      [(Side.low, 5), (Side.low, 4)]).bias ≠ 1 := by
  have h := c7_lows_never_move_high (1/1000) (firstValid [none, some 10, some 12])
    (some 3) [(Side.low, 5), (Side.low, 4)]
    (by
      intro e he
      rcases List.mem_cons.mp he with rfl | he2
      · rfl
      · rcases List.mem_cons.mp he2 with rfl | he3
        · rfl
        · simp at he3) 2
  simpa using h

theorem foldl_take_succ {α β : Type} (l : List α) (k : ℕ) (x : α)
    (f : β → α → β) (s : β) (hx : l[k]? = some x) :
    (l.take (k + 1)).foldl f s = f ((l.take k).foldl f s) x := by
  rw [List.take_succ, hx]
  simp

theorem mergeScanHighAux_getElem :
    ∀ (rows : List MRow) (s : HState) (k : ℕ), k < rows.length →
      (mergeScanHighAux s rows)[k]? =
        some ((rows.take (k + 1)).foldl mergeStepHigh s).curr := by
  intro rows
  induction rows with
  | nil => intro s k hk; simp at hk
  | cons r rs ih =>
      intro s k hk
      cases k with
      | zero =>
          rw [mergeScanHighAux]
          simp [List.take_succ_cons]
      | succ k' =>
          rw [mergeScanHighAux]
          simp only [List.getElem?_cons_succ, List.take_succ_cons, List.foldl_cons]
          exact ih (mergeStepHigh s r) k' (by simpa using hk)

theorem mergeScanLowAux_getElem :
    ∀ (rows : List MRow) (s : HState) (k : ℕ), k < rows.length →
      (mergeScanLowAux s rows)[k]? =
        some ((rows.take (k + 1)).foldl mergeStepLow s).curr := by
  intro rows
  induction rows with
  | nil => intro s k hk; simp at hk
  | cons r rs ih =>
      intro s k hk
      cases k with
      | zero =>
          rw [mergeScanLowAux]
          simp [List.take_succ_cons]
      | succ k' =>
          rw [mergeScanLowAux]
          simp only [List.getElem?_cons_succ, List.take_succ_cons, List.foldl_cons]
          exact ih (mergeStepLow s r) k' (by simpa using hk)

theorem mergeStepHigh_lastV2 (s : HState) (r : MRow) :
    (mergeStepHigh s r).lastV2 = r.mh := by
  rw [mergeStepHigh]
  by_cases h : r.mh = s.lastV2
  · simp [h]
  · simp [bne_iff_ne, h]

theorem mergeStepLow_lastV2 (s : HState) (r : MRow) :
    (mergeStepLow s r).lastV2 = r.ml := by
  rw [mergeStepLow]
  by_cases h : r.ml = s.lastV2
  · simp [h]
  · simp [bne_iff_ne, h]

/-- If the high-side scan state enters a bar at level `X`, the bar brings
no structural change and no override, and the emitted level is still `X`,
then the bar's high (if present) did not exceed `X`. -/
theorem mergeStepHigh_no_break {s : HState} {r : MRow} {X hv : ℚ}
    (hS : s.curr = some X) (hlast : r.mh = s.lastV2) (hov : ovHigh r = none)
    (hout : (mergeStepHigh s r).curr = some X) (hhi : r.hi = some hv) :
    hv ≤ X := by
  rw [mergeStepHigh] at hout
  have hch : (r.mh != s.lastV2) = false := by
    rw [hlast]
    exact bne_self_eq_false _
  simp only [hS, hhi, hov, hch, Bool.false_eq_true, if_false] at hout
  by_cases hlt : X < hv
  · rw [if_pos hlt] at hout
    exact absurd hout (by simp)
  · exact le_of_not_lt hlt

/-- Mirror of `mergeStepHigh_no_break` for the low side. -/
theorem mergeStepLow_no_break {s : HState} {r : MRow} {X lv : ℚ}
    (hS : s.curr = some X) (hlast : r.ml = s.lastV2) (hov : ovLow r = none)
    (hout : (mergeStepLow s r).curr = some X) (hlo : r.lo = some lv) :
    X ≤ lv := by
  rw [mergeStepLow] at hout
  have hch : (r.ml != s.lastV2) = false := by
    rw [hlast]
    exact bne_self_eq_false _
  simp only [hS, hlo, hov, hch, Bool.false_eq_true, if_false] at hout
  by_cases hlt : lv < X
  · rw [if_pos hlt] at hout
    exact absurd hout (by simp)
  · exact le_of_not_lt hlt

/-- C1 (amended): when at least one reversal override exists in the input
(so `merge_structure_with_events` runs its sequential break/reestablish
scan rather than returning the structural levels unchanged), once
`adjusted_major_high = X` at bar `t`, then as long as the level is neither
replaced nor re-established — no structural `major_high` change and no
high-side override on the bars of `(t, j]` — and the emitted level is
still `X` through bar `j`, no bar's high on `(t, j]` exceeds `X`;
symmetrically no bar's low falls below an emitted `adjusted_major_low`. -/
theorem c1_adjusted_level_monotonic (rows : List MRow) (t j : ℕ)
    (hover : hasOverride rows = true) :
    (∀ (X : ℚ) (rt : MRow), rows[t]? = some rt →
      (adjustedMajorHigh rows)[t]? = some (some X) →
      (∀ k r, t < k → k ≤ j → rows[k]? = some r → r.mh = rt.mh ∧ ovHigh r = none) →
      (∀ k, t < k → k ≤ j → (adjustedMajorHigh rows)[k]? = some (some X)) →
      ∀ k r hv, t < k → k ≤ j → rows[k]? = some r → r.hi = some hv → hv ≤ X) ∧
    (∀ (X : ℚ) (rt : MRow), rows[t]? = some rt →
      (adjustedMajorLow rows)[t]? = some (some X) →
      (∀ k r, t < k → k ≤ j → rows[k]? = some r → r.ml = rt.ml ∧ ovLow r = none) →
      (∀ k, t < k → k ≤ j → (adjustedMajorLow rows)[k]? = some (some X)) →
      ∀ k r lv, t < k → k ≤ j → rows[k]? = some r → r.lo = some lv → X ≤ lv) := by
  have hadjh : adjustedMajorHigh rows = mergeScanHighAux ⟨none, none⟩ rows := by
    rw [adjustedMajorHigh, if_pos hover]
  have hadjl : adjustedMajorLow rows = mergeScanLowAux ⟨none, none⟩ rows := by
    rw [adjustedMajorLow, if_pos hover]
  constructor
  · intro X rt hrt hadjt hstable hpersist k r hv htk hkj hrk hhi
    have hklen : k < rows.length := by
      by_contra hge
      rw [List.getElem?_eq_none (by omega)] at hrk
      exact Option.noConfusion hrk
    have htlen : t < rows.length := lt_of_le_of_lt (by omega) hklen
    have hk1len : k - 1 < rows.length := by omega
    -- entry state of bar k = exit state of bar k-1
    obtain ⟨rk1, hrk1⟩ : ∃ rr, rows[k - 1]? = some rr := by
      rcases hx : rows[k - 1]? with _ | rr
      · rw [List.getElem?_eq_none_iff] at hx
        omega
      · exact ⟨rr, rfl⟩
    have hcurr1 : ((rows.take (k - 1 + 1)).foldl mergeStepHigh ⟨none, none⟩).curr
        = some X := by
      rcases Nat.lt_or_ge t (k - 1) with hlt | hge
      · have := hpersist (k - 1) (by omega) (by omega)
        rw [hadjh, mergeScanHighAux_getElem rows _ _ hk1len] at this
        exact Option.some.inj this
      · have hteq : k - 1 = t := by omega
        rw [hteq]
        rw [hadjh, mergeScanHighAux_getElem rows _ _ htlen] at hadjt
        exact Option.some.inj hadjt
    have hlast1 : ((rows.take (k - 1 + 1)).foldl mergeStepHigh ⟨none, none⟩).lastV2
        = rt.mh := by
      rw [foldl_take_succ rows (k - 1) rk1 mergeStepHigh ⟨none, none⟩ hrk1,
        mergeStepHigh_lastV2]
      rcases Nat.lt_or_ge t (k - 1) with hlt | hge
      · exact (hstable (k - 1) rk1 (by omega) (by omega) hrk1).1
      · have hteq : k - 1 = t := by omega
        rw [hteq] at hrk1
        rw [hrk1] at hrt
        rw [Option.some.inj hrt]
    have hout : ((rows.take (k + 1)).foldl mergeStepHigh ⟨none, none⟩).curr
        = some X := by
      have := hpersist k htk hkj
      rw [hadjh, mergeScanHighAux_getElem rows _ _ hklen] at this
      exact Option.some.inj this
    rw [foldl_take_succ rows k r mergeStepHigh ⟨none, none⟩ hrk] at hout
    have hk1 : k - 1 + 1 = k := by omega
    rw [hk1] at hcurr1 hlast1
    obtain ⟨hmh, hov⟩ := hstable k r htk hkj hrk
    exact mergeStepHigh_no_break hcurr1 (by rw [hmh, hlast1]) hov hout hhi
  · intro X rt hrt hadjt hstable hpersist k r lv htk hkj hrk hlo
    have hklen : k < rows.length := by
      by_contra hge
      rw [List.getElem?_eq_none (by omega)] at hrk
      exact Option.noConfusion hrk
    have htlen : t < rows.length := lt_of_le_of_lt (by omega) hklen
    have hk1len : k - 1 < rows.length := by omega
    obtain ⟨rk1, hrk1⟩ : ∃ rr, rows[k - 1]? = some rr := by
      rcases hx : rows[k - 1]? with _ | rr
      · rw [List.getElem?_eq_none_iff] at hx
        omega
      · exact ⟨rr, rfl⟩
    have hcurr1 : ((rows.take (k - 1 + 1)).foldl mergeStepLow ⟨none, none⟩).curr
        = some X := by
      rcases Nat.lt_or_ge t (k - 1) with hlt | hge
      · have := hpersist (k - 1) (by omega) (by omega)
        rw [hadjl, mergeScanLowAux_getElem rows _ _ hk1len] at this
        exact Option.some.inj this
      · have hteq : k - 1 = t := by omega
        rw [hteq]
        rw [hadjl, mergeScanLowAux_getElem rows _ _ htlen] at hadjt
        exact Option.some.inj hadjt
    have hlast1 : ((rows.take (k - 1 + 1)).foldl mergeStepLow ⟨none, none⟩).lastV2
        = rt.ml := by
      rw [foldl_take_succ rows (k - 1) rk1 mergeStepLow ⟨none, none⟩ hrk1,
        mergeStepLow_lastV2]
      rcases Nat.lt_or_ge t (k - 1) with hlt | hge
      · exact (hstable (k - 1) rk1 (by omega) (by omega) hrk1).1
      · have hteq : k - 1 = t := by omega
        rw [hteq] at hrk1
        rw [hrk1] at hrt
        rw [Option.some.inj hrt]
    have hout : ((rows.take (k + 1)).foldl mergeStepLow ⟨none, none⟩).curr
        = some X := by
      have := hpersist k htk hkj
      rw [hadjl, mergeScanLowAux_getElem rows _ _ hklen] at this
      exact Option.some.inj this
    rw [foldl_take_succ rows k r mergeStepLow ⟨none, none⟩ hrk] at hout
    have hk1 : k - 1 + 1 = k := by omega
    rw [hk1] at hcurr1 hlast1
    obtain ⟨hml, hov⟩ := hstable k r htk hkj hrk
    exact mergeStepLow_no_break hcurr1 (by rw [hml, hlast1]) hov hout hlo

/-- Witness for the amended C1 on `rowsC1W`: the override level 10 set at
bar 0 bounds bar 1's high 7, and the low-side level 2 bounds bar 1's
low 18. -/
theorem c1_adjusted_level_monotonic_witness : (7 : ℚ) ≤ 10 ∧ (2 : ℚ) ≤ 18 := by
  have h := c1_adjusted_level_monotonic rowsC1W 0 1 rfl
  constructor
  · refine h.1 10 ⟨none, none, some 5, some 20, some 10, some 2, none, none⟩
      rfl rfl ?_ ?_ 1 ⟨none, none, some 7, some 18, none, none, none, none⟩ 7
      (by norm_num) le_rfl rfl rfl
    · intro k r h1 h2 hr
      interval_cases k
      cases Option.some.inj hr
      exact ⟨rfl, rfl⟩
    · intro k h1 h2
      interval_cases k
      rfl
  · refine h.2 2 ⟨none, none, some 5, some 20, some 10, some 2, none, none⟩
      rfl rfl ?_ ?_ 1 ⟨none, none, some 7, some 18, none, none, none, none⟩ 18
      (by norm_num) le_rfl rfl rfl
    · intro k r h1 h2 hr
      interval_cases k
      cases Option.some.inj hr
      exact ⟨rfl, rfl⟩
    · intro k h1 h2
      interval_cases k
      rfl

/-- C1 counterexample: the claim as stated — once `adjusted_major_high = X`
at bar `t`, no high before the bar where that level is marked broken (set
absent) exceeds `X` — fails on `rowsC1`: the emitted level is 8 at both
bars (never absent, never replaced by a different value), yet bar 1's high
is 9 > 8, because the scan breaks the level and re-establishes the same
value 8 from the changed `major_high` column within the same bar. -/
theorem c1_counterexample :
    ¬ (∀ (t j : ℕ) (X : ℚ),
        (adjustedMajorHigh rowsC1)[t]? = some (some X) →
        (∀ k, t < k → k ≤ j → (adjustedMajorHigh rowsC1)[k]? = some (some X)) →
        ∀ k r hv, t < k → k ≤ j → rowsC1[k]? = some r → r.hi = some hv →
          hv ≤ X) := by
  intro hclaim
  have h9 : (9 : ℚ) ≤ 8 := by
    refine hclaim 0 1 8 rfl ?_ 1
      ⟨some 8, none, some 9, some 1, none, none, none, none⟩ 9
      (by norm_num) le_rfl rfl rfl
    intro k h1 h2
    interval_cases k
    rfl
  norm_num at h9

end ChartAnalysis
